import Mathlib

/-!
# Binary search tree of `src/bst.go`

A shallow embedding of the Go program: the `Node`/`BST` types, `insertRec`,
`BST.Insert`, `inorder` and the insertion loop of `main`.

Modelling choices.

* `*Node` is a pointer that is either `nil` or the address of a node owning its two
  children. The program only ever builds trees (each node has one owner, no
  sharing, no cycle), so a pointer is embedded as a value of the inductive type
  `Node`, with `Node.nil` for the `nil` pointer. The in-place assignments
  `node.left = insertRec(node.left, value)` followed by `return node` become the
  construction of the updated node.
* Go's `int` is a machine integer, but the program only compares values with
  `<` and `>` and never does arithmetic on them, so values are embedded as `Int`.
* `inorder` prints each visited value; the embedding returns the sequence of the
  values it prints, in the order it prints them. `inorderRun` makes the effects
  explicit (the tree the call leaves behind and the text on standard output), and
  `main` is the text the program writes.
* `insertRecChecked` and `inorderChecked` follow the source statement by statement
  with every field access checked against `nil` and the recursion depth bounded;
  they are proved to agree with the total embeddings.
-/

namespace Bst

/-! ## Data model -/

/-- A `*Node` of the source: `nil`, or a node with its `value`, `left` and `right`. -/
inductive Node where
  | nil : Node
  | node (value : Int) (left : Node) (right : Node) : Node
  deriving DecidableEq

/-- The `BST` struct of the source: it holds the root pointer. -/
structure BST where
  root : Node
  deriving DecidableEq

/-- The zero value `BST{}` of the source: the root is `nil`. -/
def BST.empty : BST := ⟨Node.nil⟩

/-! ## Operations -/

/-- The function `insertRec` of the source (lines 19-29). -/
def insertRec : Node → Int → Node
  | Node.nil, value => Node.node value Node.nil Node.nil
  | Node.node x l r, value =>
    if value < x then
      Node.node x (insertRec l value) r
    else if value > x then
      Node.node x l (insertRec r value)
    else
      Node.node x l r

/-- The method `Insert` of the source (lines 15-17). -/
def BST.Insert (t : BST) (value : Int) : BST :=
  ⟨insertRec t.root value⟩

/-- The function `inorder` of the source (lines 31-38): the values it prints, in order. -/
def inorder : Node → List Int
  | Node.nil => []
  | Node.node x l r => inorder l ++ x :: inorder r

/-- The loop `for _, v := range values { tree.Insert(v) }` of `main`. -/
def insertAll (tree : BST) (values : List Int) : BST :=
  values.foldl BST.Insert tree

/-- The slice `values` of `main`. -/
def values : List Int := [50, 30, 70, 20, 40, 60, 80]

/-- The values `main` prints after the header line: it builds the tree from
`BST{}` and `values`, then calls `inorder` on the root. -/
def mainEmitted : List Int :=
  inorder (insertAll BST.empty values).root

/-! ## Vocabulary of the specification -/

/-- The value `y` is held by some node of the tree. -/
def Node.Holds : Node → Int → Prop
  | Node.nil, _ => False
  | Node.node x l r, y => y = x ∨ Node.Holds l y ∨ Node.Holds r y

instance Node.decHolds : (t : Node) → (y : Int) → Decidable (Node.Holds t y)
  | Node.nil, _ => isFalse (fun h => h)
  | Node.node x l r, y =>
    have := Node.decHolds l y
    have := Node.decHolds r y
    inferInstanceAs (Decidable (y = x ∨ Node.Holds l y ∨ Node.Holds r y))

/-- Every value held in the tree satisfies `p`. -/
def Node.Forall (p : Int → Prop) : Node → Prop
  | Node.nil => True
  | Node.node x l r => p x ∧ Node.Forall p l ∧ Node.Forall p r

instance Node.decForall (p : Int → Prop) [DecidablePred p] :
    (t : Node) → Decidable (Node.Forall p t)
  | Node.nil => isTrue trivial
  | Node.node x l r =>
    have := Node.decForall p l
    have := Node.decForall p r
    inferInstanceAs (Decidable (p x ∧ Node.Forall p l ∧ Node.Forall p r))

/-- The BST ordering invariant: at every node, the left subtree holds only strictly
smaller values and the right subtree only strictly greater values. -/
def Node.Ordered : Node → Prop
  | Node.nil => True
  | Node.node x l r =>
    Node.Forall (fun y => y < x) l ∧ Node.Forall (fun y => x < y) r ∧
      Node.Ordered l ∧ Node.Ordered r

instance Node.decOrdered : (t : Node) → Decidable (Node.Ordered t)
  | Node.nil => isTrue trivial
  | Node.node x l r =>
    have := Node.decOrdered l
    have := Node.decOrdered r
    inferInstanceAs (Decidable (Node.Forall (fun y => y < x) l ∧
      Node.Forall (fun y => x < y) r ∧ Node.Ordered l ∧ Node.Ordered r))

/-- The number of nodes of the tree. -/
def Node.size : Node → Nat
  | Node.nil => 0
  | Node.node _ l r => Node.size l + 1 + Node.size r

/-- The node values of the tree, listed parent first (one entry per node). -/
def Node.nodeValues : Node → List Int
  | Node.nil => []
  | Node.node x l r => x :: (Node.nodeValues l ++ Node.nodeValues r)

/-- The right spine on a sequence: no node has a left child, the right child of
each node holds the next value, and the last node has no right child. -/
def rightSpine : List Int → Node
  | [] => Node.nil
  | x :: xs => Node.node x Node.nil (rightSpine xs)

/-! ## Effects made explicit: standard output, faults and recursion depth -/

/-- The text written by `fmt.Print(node.value, " ")`: the value in decimal, then the
space (`Print` puts no separator next to a string operand). -/
def printValue (value : Int) : String :=
  toString value ++ " "

/-- The text of a sequence of emitted values: each one as `printValue` writes it. -/
def render : List Int → String
  | [] => ""
  | v :: vs => printValue v ++ render vs

/-- The function `inorder` of the source with its effects explicit: from the text
already on standard output it gives the subtree as the call leaves it and the text
on standard output after the call. -/
def inorderRun : Node → String → Node × String
  | Node.nil, out => (Node.nil, out)
  | Node.node x l r, out =>
    let afterLeft := inorderRun l out
    let afterRight := inorderRun r (afterLeft.2 ++ printValue x)
    (Node.node x afterLeft.1 afterRight.1, afterRight.2)

/-- The function `main` of the source (lines 40-50): the text on standard output
when it returns. `fmt.Println("Inorder:")` writes the header and a newline. -/
def main : String :=
  let tree := insertAll BST.empty values
  let out := "Inorder:" ++ "\n"
  (inorderRun tree.root out).2

/-- What can stop a run of the checked embedding: reading or writing a field through
a `nil` pointer (a panic in Go), or a recursion deeper than the allowed depth. -/
inductive Fault where
  | nilDereference : Fault
  | outOfFuel : Fault
  deriving DecidableEq

/-- The field read `node.value`: it faults on `nil`. -/
def Node.getValue : Node → Except Fault Int
  | Node.nil => Except.error Fault.nilDereference
  | Node.node x _ _ => Except.ok x

/-- The field read `node.left`: it faults on `nil`. -/
def Node.getLeft : Node → Except Fault Node
  | Node.nil => Except.error Fault.nilDereference
  | Node.node _ l _ => Except.ok l

/-- The field read `node.right`: it faults on `nil`. -/
def Node.getRight : Node → Except Fault Node
  | Node.nil => Except.error Fault.nilDereference
  | Node.node _ _ r => Except.ok r

/-- The field write `node.left = l`: it faults on `nil`. -/
def Node.setLeft : Node → Node → Except Fault Node
  | Node.nil, _ => Except.error Fault.nilDereference
  | Node.node x _ r, l => Except.ok (Node.node x l r)

/-- The field write `node.right = r`: it faults on `nil`. -/
def Node.setRight : Node → Node → Except Fault Node
  | Node.nil, _ => Except.error Fault.nilDereference
  | Node.node x l _, r => Except.ok (Node.node x l r)

/-- The function `insertRec` of the source, statement by statement, with every field
access checked and the recursion depth bounded by `fuel`. -/
def insertRecChecked : Nat → Node → Int → Except Fault Node
  | 0, _, _ => Except.error Fault.outOfFuel
  | fuel + 1, node, value =>
    if node = Node.nil then
      Except.ok (Node.node value Node.nil Node.nil)
    else do
      let x ← Node.getValue node
      if value < x then
        let l ← Node.getLeft node
        let l1 ← insertRecChecked fuel l value
        Node.setLeft node l1
      else
        let y ← Node.getValue node
        if value > y then
          let r ← Node.getRight node
          let r1 ← insertRecChecked fuel r value
          Node.setRight node r1
        else
          Except.ok node

/-- The function `inorder` of the source, statement by statement, with every field
access checked and the recursion depth bounded by `fuel`; it gives the text on
standard output after the call. -/
def inorderChecked : Nat → Node → String → Except Fault String
  | 0, _, _ => Except.error Fault.outOfFuel
  | fuel + 1, node, out =>
    if node = Node.nil then
      Except.ok out
    else do
      let l ← Node.getLeft node
      let out1 ← inorderChecked fuel l out
      let x ← Node.getValue node
      let out2 := out1 ++ printValue x
      let r ← Node.getRight node
      inorderChecked fuel r out2

/-- The longest chain of nodes from the root downwards. -/
def Node.height : Node → Nat
  | Node.nil => 0
  | Node.node _ l r => max (Node.height l) (Node.height r) + 1

/-- One step down from a node: to its left or to its right child. -/
inductive Dir where
  | left : Dir
  | right : Dir
  deriving DecidableEq

/-- The value of the node at a position, given as the steps from the root; `none`
when the tree has no node there. -/
def Node.valueAt : Node → List Dir → Option Int
  | Node.nil, _ => none
  | Node.node x _ _, [] => some x
  | Node.node _ l _, Dir.left :: p => Node.valueAt l p
  | Node.node _ _ r, Dir.right :: p => Node.valueAt r p

/-! ## Helper lemmas -/

theorem forall_iff_holds (p : Int → Prop) (t : Node) :
    Node.Forall p t ↔ ∀ y, Node.Holds t y → p y := by
  induction t with
  | nil => simp [Node.Forall, Node.Holds]
  | node x l r ihl ihr =>
    simp only [Node.Forall, Node.Holds, ihl, ihr]
    constructor
    · rintro ⟨hx, hl, hr⟩ y (rfl | h | h)
      · exact hx
      · exact hl y h
      · exact hr y h
    · intro h
      exact ⟨h x (Or.inl rfl), fun y hy => h y (Or.inr (Or.inl hy)),
        fun y hy => h y (Or.inr (Or.inr hy))⟩

theorem holds_insertRec (t : Node) (v y : Int) :
    Node.Holds (insertRec t v) y ↔ Node.Holds t y ∨ y = v := by
  induction t with
  | nil => simp [insertRec, Node.Holds]
  | node x l r ihl ihr =>
    unfold insertRec
    split_ifs with h1 h2
    · simp only [Node.Holds, ihl]; tauto
    · simp only [Node.Holds, ihr]; tauto
    · have hv : v = x := by omega
      subst hv
      simp only [Node.Holds]; tauto

theorem forall_insertRec (p : Int → Prop) (t : Node) (v : Int)
    (hv : p v) (ht : Node.Forall p t) : Node.Forall p (insertRec t v) := by
  rw [forall_iff_holds] at ht ⊢
  intro y hy
  rcases (holds_insertRec t v y).1 hy with h | h
  · exact ht y h
  · exact h ▸ hv

theorem ordered_insertRec (t : Node) (v : Int) (ht : Node.Ordered t) :
    Node.Ordered (insertRec t v) := by
  induction t with
  | nil => simp [insertRec, Node.Ordered, Node.Forall]
  | node x l r ihl ihr =>
    obtain ⟨hl, hr, ol, or⟩ := ht
    unfold insertRec
    split_ifs with h1 h2
    · exact ⟨forall_insertRec _ l v h1 hl, hr, ihl ol, or⟩
    · exact ⟨hl, forall_insertRec _ r v h2 hr, ol, ihr or⟩
    · exact ⟨hl, hr, ol, or⟩

theorem mem_inorder (t : Node) (y : Int) : y ∈ inorder t ↔ Node.Holds t y := by
  induction t with
  | nil => simp [inorder, Node.Holds]
  | node x l r ihl ihr =>
    simp only [inorder, Node.Holds, List.mem_append, List.mem_cons, ihl, ihr]
    tauto

theorem sorted_inorder (t : Node) (ht : Node.Ordered t) :
    List.Sorted (fun a b => a < b) (inorder t) := by
  induction t with
  | nil => simp [inorder]
  | node x l r ihl ihr =>
    obtain ⟨hl, hr, ol, or⟩ := ht
    rw [forall_iff_holds] at hl hr
    simp only [inorder, List.Sorted, List.pairwise_append, List.pairwise_cons,
      List.mem_cons]
    refine ⟨ihl ol, ⟨fun b hb => hr b ((mem_inorder r b).1 hb), ihr or⟩, ?_⟩
    rintro a ha b (rfl | hb)
    · exact hl a ((mem_inorder l a).1 ha)
    · exact lt_trans (hl a ((mem_inorder l a).1 ha)) (hr b ((mem_inorder r b).1 hb))

theorem insertAll_snoc (tree : BST) (xs : List Int) (x : Int) :
    insertAll tree (xs ++ [x]) = (insertAll tree xs).Insert x := by
  simp [insertAll, List.foldl_append]

theorem ordered_insertAll (tree : BST) (xs : List Int) (h : Node.Ordered tree.root) :
    Node.Ordered (insertAll tree xs).root := by
  induction xs generalizing tree with
  | nil => exact h
  | cons x xs ih => exact ih (tree.Insert x) (ordered_insertRec tree.root x h)

theorem holds_insertAll (tree : BST) (xs : List Int) (y : Int) :
    Node.Holds (insertAll tree xs).root y ↔ Node.Holds tree.root y ∨ y ∈ xs := by
  induction xs generalizing tree with
  | nil => simp [insertAll]
  | cons x xs ih =>
    have := ih (tree.Insert x)
    simp only [insertAll, List.foldl_cons] at this ⊢
    rw [this]
    simp only [BST.Insert, holds_insertRec, List.mem_cons]
    tauto

theorem sorted_inorder_insertAll (xs : List Int) :
    List.Sorted (fun a b => a < b) (inorder (insertAll BST.empty xs).root) :=
  sorted_inorder _ (ordered_insertAll BST.empty xs trivial)

theorem mem_inorder_insertAll (xs : List Int) (y : Int) :
    y ∈ inorder (insertAll BST.empty xs).root ↔ y ∈ xs := by
  rw [mem_inorder, holds_insertAll]
  simp [BST.empty, Node.Holds]

theorem inorder_eq_of_sorted_of_mem_iff (l₁ l₂ : List Int)
    (h₁ : List.Sorted (fun a b => a < b) l₁) (h₂ : List.Sorted (fun a b => a < b) l₂)
    (hm : ∀ z, z ∈ l₁ ↔ z ∈ l₂) : l₁ = l₂ := by
  have hp : l₁.Perm l₂ := (List.perm_ext_iff_of_nodup h₁.nodup h₂.nodup).2 hm
  exact List.eq_of_perm_of_sorted hp h₁.le_of_lt h₂.le_of_lt

theorem insertRec_rightSpine (xs : List Int) (x : Int) (h : ∀ y ∈ xs, y < x) :
    insertRec (rightSpine xs) x = rightSpine (xs ++ [x]) := by
  induction xs with
  | nil => simp [rightSpine, insertRec]
  | cons a xs ih =>
    have ha : a < x := h a (List.mem_cons_self a xs)
    have hna : ¬ x < a := by omega
    have ih2 := ih (fun y hy => h y (List.mem_cons_of_mem a hy))
    show insertRec (Node.node a Node.nil (rightSpine xs)) x
      = Node.node a Node.nil (rightSpine (xs ++ [x]))
    rw [← ih2]
    simp only [insertRec, if_neg hna, gt_iff_lt, if_pos ha]

theorem inorder_rightSpine (xs : List Int) : inorder (rightSpine xs) = xs := by
  induction xs with
  | nil => rfl
  | cons a xs ih => simp [rightSpine, inorder, ih]

theorem insertAll_sorted_eq_rightSpine (xs : List Int)
    (h : List.Sorted (fun a b => a < b) xs) :
    (insertAll BST.empty xs).root = rightSpine xs := by
  induction xs using List.reverseRecOn with
  | nil => rfl
  | append_singleton xs x ih =>
    have hs := List.pairwise_append.1 h
    rw [insertAll_snoc]
    simp only [BST.Insert]
    rw [ih hs.1]
    exact insertRec_rightSpine xs x (fun y hy => hs.2.2 y hy x (List.mem_singleton_self x))

theorem insertRec_insertRec (t : Node) (v : Int) :
    insertRec (insertRec t v) v = insertRec t v := by
  induction t with
  | nil => simp [insertRec]
  | node x l r ihl ihr =>
    by_cases h1 : v < x
    · simp [insertRec, h1, ihl]
    · by_cases h2 : v > x
      · simp [insertRec, h1, h2, ihr]
      · simp [insertRec, h1, h2]

theorem length_inorder (t : Node) : (inorder t).length = Node.size t := by
  induction t with
  | nil => rfl
  | node x l r ihl ihr => simp [inorder, Node.size, ihl, ihr]; omega

theorem perm_inorder_nodeValues (t : Node) : (inorder t).Perm (Node.nodeValues t) := by
  induction t with
  | nil => exact List.Perm.refl _
  | node x l r ihl ihr =>
    simp only [inorder, Node.nodeValues]
    exact List.perm_middle.trans (List.Perm.cons x (ihl.append ihr))

theorem render_append (a b : List Int) : render (a ++ b) = render a ++ render b := by
  induction a with
  | nil => simp [render]
  | cons v vs ih => simp [render, ih, String.append_assoc]

theorem inorderRun_fst (t : Node) (out : String) : (inorderRun t out).1 = t := by
  induction t generalizing out with
  | nil => rfl
  | node x l r ihl ihr => simp [inorderRun, ihl, ihr]

theorem inorderRun_snd (t : Node) (out : String) :
    (inorderRun t out).2 = out ++ render (inorder t) := by
  induction t generalizing out with
  | nil => simp [inorderRun, inorder, render]
  | node x l r ihl ihr =>
    simp [inorderRun, inorder, render, render_append, ihl, ihr, String.append_assoc]

theorem insertRec_ne_nil (t : Node) (v : Int) : insertRec t v ≠ Node.nil := by
  cases t with
  | nil => simp [insertRec]
  | node x l r =>
    unfold insertRec
    split_ifs <;> simp

theorem insertRecChecked_eq (t : Node) (v : Int) (fuel : Nat) (h : Node.height t < fuel) :
    insertRecChecked fuel t v = Except.ok (insertRec t v) := by
  induction t generalizing fuel with
  | nil =>
    cases fuel with
    | zero => simp [Node.height] at h
    | succ n => simp [insertRecChecked, insertRec]
  | node x l r ihl ihr =>
    cases fuel with
    | zero => simp at h
    | succ n =>
      have hl : Node.height l < n := by simp only [Node.height] at h; omega
      have hr : Node.height r < n := by simp only [Node.height] at h; omega
      by_cases h1 : v < x
      · simp [insertRecChecked, insertRec, Node.getValue, Node.getLeft, Node.setLeft,
          bind, Except.bind, h1, ihl n hl]
      · by_cases h2 : x < v
        · simp [insertRecChecked, insertRec, Node.getValue, Node.getRight, Node.setRight,
            bind, Except.bind, h1, h2, ihr n hr]
        · simp [insertRecChecked, insertRec, Node.getValue, bind, Except.bind, h1, h2]

theorem inorderChecked_eq (t : Node) (out : String) (fuel : Nat)
    (h : Node.height t < fuel) :
    inorderChecked fuel t out = Except.ok (inorderRun t out).2 := by
  induction t generalizing fuel out with
  | nil =>
    cases fuel with
    | zero => simp [Node.height] at h
    | succ n => simp [inorderChecked, inorderRun]
  | node x l r ihl ihr =>
    cases fuel with
    | zero => simp at h
    | succ n =>
      have hl : Node.height l < n := by simp only [Node.height] at h; omega
      have hr : Node.height r < n := by simp only [Node.height] at h; omega
      simp [inorderChecked, inorderRun, Node.getValue, Node.getLeft, Node.getRight,
        bind, Except.bind, ihl _ n hl, ihr _ n hr]

theorem perm_inorder_insertAll_dedup (xs : List Int) :
    (inorder (insertAll BST.empty xs).root).Perm xs.dedup := by
  refine (List.perm_ext_iff_of_nodup (sorted_inorder_insertAll xs).nodup
    (List.nodup_dedup xs)).2 (fun z => ?_)
  rw [mem_inorder_insertAll, List.mem_dedup]

theorem insertRec_eq_self_of_holds (t : Node) (v : Int) (ht : Node.Ordered t)
    (hv : Node.Holds t v) : insertRec t v = t := by
  induction t with
  | nil => exact absurd hv (by simp [Node.Holds])
  | node x l r ihl ihr =>
    obtain ⟨hl, hr, ol, or⟩ := ht
    rw [forall_iff_holds] at hl hr
    rcases hv with rfl | h | h
    · simp [insertRec]
    · have h1 : v < x := hl v h
      simp [insertRec, h1, ihl ol h]
    · have h2 : x < v := hr v h
      have h1 : ¬ v < x := by omega
      simp [insertRec, h1, h2, ihr or h]

theorem valueAt_nil (p : List Dir) : Node.valueAt Node.nil p = none := by
  cases p <;> rfl

theorem insertRec_attaches (t : Node) (v : Int) :
    insertRec t v = t ∨
      (Node.size (insertRec t v) = Node.size t + 1 ∧
        ∃ p, Node.valueAt t p = none ∧ Node.valueAt (insertRec t v) p = some v ∧
          Node.valueAt (insertRec t v) (p ++ [Dir.left]) = none ∧
          Node.valueAt (insertRec t v) (p ++ [Dir.right]) = none ∧
          ∀ q, q ≠ p → Node.valueAt (insertRec t v) q = Node.valueAt t q) := by
  induction t with
  | nil =>
    refine Or.inr ⟨by simp [insertRec, Node.size], [], rfl, rfl, rfl, rfl, ?_⟩
    intro q hq
    cases q with
    | nil => exact absurd rfl hq
    | cons d q => cases d <;> simp [insertRec, Node.valueAt, valueAt_nil]
  | node x l r ihl ihr =>
    by_cases h1 : v < x
    · rcases ihl with h | ⟨hs, p, hp0, hp1, hp2, hp3, hq⟩
      · exact Or.inl (by simp [insertRec, h1, h])
      · refine Or.inr ⟨by simp [insertRec, h1, Node.size, hs]; omega, Dir.left :: p, ?_⟩
        simp only [insertRec, if_pos h1, Node.valueAt, List.cons_append]
        refine ⟨hp0, hp1, hp2, hp3, ?_⟩
        intro q hne
        match q with
        | [] => rfl
        | Dir.left :: q => exact hq q (fun h => hne (by rw [h]))
        | Dir.right :: q => rfl
    · by_cases h2 : x < v
      · rcases ihr with h | ⟨hs, p, hp0, hp1, hp2, hp3, hq⟩
        · exact Or.inl (by simp [insertRec, h1, h2, h])
        · refine Or.inr ⟨by simp [insertRec, h1, h2, Node.size, hs]; omega,
            Dir.right :: p, ?_⟩
          simp only [insertRec, if_neg h1, gt_iff_lt, if_pos h2, Node.valueAt,
            List.cons_append]
          refine ⟨hp0, hp1, hp2, hp3, ?_⟩
          intro q hne
          match q with
          | [] => rfl
          | Dir.left :: q => rfl
          | Dir.right :: q => exact hq q (fun h => hne (by rw [h]))
      · exact Or.inl (by simp [insertRec, h1, h2])

theorem valueAt_root_insertRec (t : Node) (v x : Int)
    (h : Node.valueAt t [] = some x) : Node.valueAt (insertRec t v) [] = some x := by
  cases t with
  | nil => simp [Node.valueAt] at h
  | node y l r =>
    unfold insertRec
    split_ifs <;> simpa [Node.valueAt] using h

theorem valueAt_root_insertAll (tree : BST) (xs : List Int) (x : Int)
    (h : Node.valueAt tree.root [] = some x) :
    Node.valueAt (insertAll tree xs).root [] = some x := by
  induction xs generalizing tree with
  | nil => exact h
  | cons y ys ih => exact ih (tree.Insert y) (valueAt_root_insertRec tree.root y x h)

/-! ## The claims -/

/-- C1: the empty tree satisfies the BST ordering invariant, and for every tree whose
root satisfies it and every integer `v`, the tree after `Insert(v)` satisfies it too. -/
theorem insert_preserves_ordering :
    Node.Ordered BST.empty.root ∧
      ∀ (t : BST) (v : Int), Node.Ordered t.root → Node.Ordered (t.Insert v).root :=
  ⟨trivial, fun t v h => ordered_insertRec t.root v h⟩

/-- Witness for C1: inserting 3 into the ordered tree with root 5 and left child 2. -/
theorem insert_preserves_ordering_witness :
    Node.Ordered (BST.mk (Node.node 5 (Node.node 2 Node.nil Node.nil) Node.nil)).root ∧
      Node.Ordered
        ((BST.mk (Node.node 5 (Node.node 2 Node.nil Node.nil) Node.nil)).Insert 3).root :=
  ⟨by decide, insert_preserves_ordering.2 _ 3 (by decide)⟩

/-- C2: inserting the elements of `xs` in order into the empty tree and running
`inorder` on the root emits the ascending sort of the distinct values of `xs`. -/
theorem inorder_insertAll_eq_sort_dedup (xs : List Int) :
    inorder (insertAll BST.empty xs).root
      = List.insertionSort (fun a b => a ≤ b) xs.dedup := by
  have hs := sorted_inorder_insertAll xs
  have hp : (inorder (insertAll BST.empty xs).root).Perm
      (List.insertionSort (fun a b => a ≤ b) xs.dedup) := by
    refine (List.perm_ext_iff_of_nodup hs.nodup ?_).2 ?_
    · exact (List.perm_insertionSort _ _).nodup_iff.2 (List.nodup_dedup xs)
    · intro z
      rw [mem_inorder_insertAll, (List.perm_insertionSort _ _).mem_iff, List.mem_dedup]
  exact List.eq_of_perm_of_sorted hp hs.le_of_lt (List.sorted_insertionSort _ _)

/-- C3: for every sequence inserted into the empty tree, the values emitted by
`inorder` are strictly increasing: every emitted value is strictly less than every
later one, and in particular than the one emitted right after it. -/
theorem inorder_insertAll_strictly_increasing (xs : List Int) :
    List.Sorted (fun a b => a < b) (inorder (insertAll BST.empty xs).root) ∧
      List.Chain' (fun a b => a < b) (inorder (insertAll BST.empty xs).root) :=
  ⟨sorted_inorder_insertAll xs, (sorted_inorder_insertAll xs).chain'⟩

/-- C4: after `Insert(v)` the value `v` is held by the tree, and a value is held by
the tree afterwards exactly when it was held before or it is `v`. -/
theorem insert_values (t : BST) (v : Int) :
    Node.Holds (t.Insert v).root v ∧
      ∀ y, Node.Holds (t.Insert v).root y ↔ (Node.Holds t.root y ∨ y = v) :=
  ⟨(holds_insertRec t.root v v).2 (Or.inr rfl), fun y => holds_insertRec t.root v y⟩

/-- C5: inserting `v` twice in a row gives the same tree as inserting it once, for
`insertRec` on any node and for `Insert` on any tree. -/
theorem insert_idempotent (t : Node) (v : Int) :
    insertRec (insertRec t v) v = insertRec t v ∧
      ((BST.mk t).Insert v).Insert v = (BST.mk t).Insert v :=
  ⟨insertRec_insertRec t v, by simp [BST.Insert, insertRec_insertRec]⟩

/-- C6: two sequences with the same set of values give the same `inorder` output
when inserted into the empty tree, and that output has each value of the sequence
exactly once (and no other value). -/
theorem inorder_insertAll_order_irrelevant (xs ys : List Int)
    (h : ∀ z, z ∈ xs ↔ z ∈ ys) :
    inorder (insertAll BST.empty xs).root = inorder (insertAll BST.empty ys).root ∧
      ∀ z, (inorder (insertAll BST.empty xs).root).count z = if z ∈ xs then 1 else 0 := by
  refine ⟨inorder_eq_of_sorted_of_mem_iff _ _ (sorted_inorder_insertAll xs)
    (sorted_inorder_insertAll ys) (fun z => ?_), fun z => ?_⟩
  · rw [mem_inorder_insertAll, mem_inorder_insertAll, h]
  · split_ifs with hz
    · exact List.count_eq_one_of_mem (sorted_inorder_insertAll xs).nodup
        ((mem_inorder_insertAll xs z).2 hz)
    · exact List.count_eq_zero_of_not_mem (fun hm => hz ((mem_inorder_insertAll xs z).1 hm))

/-- Witness for C6: the sequences 3, 1, 3, 2 and 2, 2, 1, 3 hold the same values. -/
theorem inorder_insertAll_order_irrelevant_witness :
    (∀ z : Int, z ∈ [3, 1, 3, 2] ↔ z ∈ [2, 2, 1, 3]) ∧
      inorder (insertAll BST.empty [3, 1, 3, 2]).root
        = inorder (insertAll BST.empty [2, 2, 1, 3]).root ∧
      ∀ z, (inorder (insertAll BST.empty [3, 1, 3, 2]).root).count z
        = if z ∈ [3, 1, 3, 2] then 1 else 0 :=
  ⟨by intro z; simp only [List.mem_cons, List.mem_singleton, List.not_mem_nil]; tauto,
    inorder_insertAll_order_irrelevant [3, 1, 3, 2] [2, 2, 1, 3]
      (by intro z; simp only [List.mem_cons, List.mem_singleton, List.not_mem_nil]; tauto)⟩

/-- C7: inserting 50, 30, 70, 20, 40, 60, 80 in that order into the empty tree and
running `inorder` emits 20, 30, 40, 50, 60, 70, 80 in that order. -/
theorem main_emits_sorted :
    values = [50, 30, 70, 20, 40, 60, 80] ∧
      inorder (insertAll BST.empty [50, 30, 70, 20, 40, 60, 80]).root
        = [20, 30, 40, 50, 60, 70, 80] ∧
      mainEmitted = [20, 30, 40, 50, 60, 70, 80] := by
  decide

/-- C8: inserting a strictly increasing sequence in order into the empty tree gives
the right spine on that sequence, and `inorder` emits the sequence unchanged. -/
theorem increasing_gives_rightSpine (xs : List Int)
    (h : List.Sorted (fun a b => a < b) xs) :
    (insertAll BST.empty xs).root = rightSpine xs ∧
      inorder (insertAll BST.empty xs).root = xs := by
  have hr := insertAll_sorted_eq_rightSpine xs h
  exact ⟨hr, by rw [hr, inorder_rightSpine]⟩

/-- Witness for C8: 1, 2, 3, 4 gives 1 -> 2 -> 3 -> 4 along right links and emits 1 2 3 4. -/
theorem increasing_gives_rightSpine_witness :
    List.Sorted (fun a b : Int => a < b) [1, 2, 3, 4] ∧
      (insertAll BST.empty [1, 2, 3, 4]).root
        = Node.node 1 Node.nil (Node.node 2 Node.nil (Node.node 3 Node.nil
            (Node.node 4 Node.nil Node.nil))) ∧
      inorder (insertAll BST.empty [1, 2, 3, 4]).root = [1, 2, 3, 4] :=
  ⟨by decide, increasing_gives_rightSpine [1, 2, 3, 4] (by decide)⟩

/-- C9: for every tree satisfying the BST ordering invariant, built by `Insert` or
not, the values emitted by `inorder` are strictly ascending. -/
theorem inorder_ascending_of_ordered (t : Node) (h : Node.Ordered t) :
    List.Sorted (fun a b => a < b) (inorder t) :=
  sorted_inorder t h

/-- Witness for C9: a hand-built ordered tree that no insertion order is needed for. -/
theorem inorder_ascending_of_ordered_witness :
    Node.Ordered (Node.node 4 (Node.node 1 Node.nil (Node.node 3 Node.nil Node.nil))
        (Node.node 9 Node.nil Node.nil)) ∧
      List.Sorted (fun a b => a < b)
        (inorder (Node.node 4 (Node.node 1 Node.nil (Node.node 3 Node.nil Node.nil))
          (Node.node 9 Node.nil Node.nil))) :=
  ⟨by decide, inorder_ascending_of_ordered _ (by decide)⟩

/-- C10: `inorder` emits nothing for an empty subtree; at a node it emits the output
of the left subtree, then the node's value, then the output of the right subtree;
so for every tree the number of emitted values is the number of nodes and the
multiset of emitted values is the multiset of node values. -/
theorem inorder_visits_each_node_once :
    inorder Node.nil = [] ∧
      (∀ (x : Int) (l r : Node),
        inorder (Node.node x l r) = inorder l ++ [x] ++ inorder r) ∧
      ∀ t : Node, (inorder t).length = Node.size t ∧
        (inorder t : Multiset Int) = (Node.nodeValues t : Multiset Int) :=
  ⟨rfl, fun x l r => by simp [inorder],
    fun t => ⟨length_inorder t, Quotient.sound (perm_inorder_nodeValues t)⟩⟩

/-- C11: running `inorder` leaves the tree as it was, whatever is already on standard
output, so a second run on the tree the first run left behind appends the same text
as the first run did, and emits the same values. -/
theorem inorder_read_only (t : Node) (out : String) :
    (inorderRun t out).1 = t ∧
      (inorderRun t out).2 = out ++ render (inorder t) ∧
      (inorderRun (inorderRun t out).1 (inorderRun t out).2).2
        = (inorderRun t out).2 ++ render (inorder t) ∧
      inorder (inorderRun t out).1 = inorder t := by
  refine ⟨inorderRun_fst t out, inorderRun_snd t out, ?_, ?_⟩
  · rw [inorderRun_fst, inorderRun_snd t (inorderRun t out).2]
  · rw [inorderRun_fst]

/-- C12: the tree built from the empty tree by inserting `xs` has as many nodes as
`xs` has distinct values, and no two of its nodes hold the same value. -/
theorem one_node_per_distinct_value (xs : List Int) :
    Node.size (insertAll BST.empty xs).root = xs.dedup.length ∧
      (Node.nodeValues (insertAll BST.empty xs).root).Nodup := by
  constructor
  · rw [← length_inorder]
    exact (perm_inorder_insertAll_dedup xs).length_eq
  · exact (perm_inorder_nodeValues _).nodup_iff.1 (sorted_inorder_insertAll xs).nodup

/-- C13: the text `main` writes to standard output is the line `Inorder:` ended by a
newline, then `20 30 40 50 60 70 80 ` with a trailing space and no final newline. -/
theorem main_output : main = "Inorder:\n20 30 40 50 60 70 80 " := by
  decide

/-- C14: with every field access checked, `insertRec` and `inorder` finish without a
fault as soon as the allowed recursion depth exceeds the height of the tree:
`insertRec` returns the tree of the unchecked embedding, which is never `nil`, and
`inorder` returns the standard output of the unchecked embedding. -/
theorem insert_and_inorder_total (t : Node) (v : Int) (out : String) (fuel : Nat)
    (h : Node.height t < fuel) :
    insertRecChecked fuel t v = Except.ok (insertRec t v) ∧
      insertRec t v ≠ Node.nil ∧
      inorderChecked fuel t out = Except.ok (inorderRun t out).2 :=
  ⟨insertRecChecked_eq t v fuel h, insertRec_ne_nil t v, inorderChecked_eq t out fuel h⟩

/-- Witness for C14: a tree of height 2 run with recursion depth 3. -/
theorem insert_and_inorder_total_witness :
    Node.height (Node.node 5 (Node.node 2 Node.nil Node.nil) Node.nil) < 3 ∧
      insertRecChecked 3 (Node.node 5 (Node.node 2 Node.nil Node.nil) Node.nil) 3
        = Except.ok (insertRec (Node.node 5 (Node.node 2 Node.nil Node.nil) Node.nil) 3) ∧
      insertRec (Node.node 5 (Node.node 2 Node.nil Node.nil) Node.nil) 3 ≠ Node.nil ∧
      inorderChecked 3 (Node.node 5 (Node.node 2 Node.nil Node.nil) Node.nil) ""
        = Except.ok (inorderRun (Node.node 5 (Node.node 2 Node.nil Node.nil) Node.nil) "").2 :=
  ⟨by decide, insert_and_inorder_total _ 3 "" 3 (by decide)⟩

/-- C15: inserting a value that some node of an ordered tree already holds gives back
the same tree: same shape, same values, no added node. -/
theorem insert_present_is_noop (t : BST) (v : Int) (ht : Node.Ordered t.root)
    (hv : Node.Holds t.root v) :
    t.Insert v = t ∧ Node.size (t.Insert v).root = Node.size t.root := by
  have h : t.Insert v = t := by
    cases t with
    | mk root => simp [BST.Insert, insertRec_eq_self_of_holds root v ht hv]
  exact ⟨h, by rw [h]⟩

/-- Witness for C15: inserting 2 again into the tree with root 5 and left child 2. -/
theorem insert_present_is_noop_witness :
    Node.Ordered (BST.mk (Node.node 5 (Node.node 2 Node.nil Node.nil) Node.nil)).root ∧
      Node.Holds (BST.mk (Node.node 5 (Node.node 2 Node.nil Node.nil) Node.nil)).root 2 ∧
      (BST.mk (Node.node 5 (Node.node 2 Node.nil Node.nil) Node.nil)).Insert 2
        = BST.mk (Node.node 5 (Node.node 2 Node.nil Node.nil) Node.nil) ∧
      Node.size ((BST.mk (Node.node 5 (Node.node 2 Node.nil Node.nil) Node.nil)).Insert 2).root
        = Node.size (BST.mk (Node.node 5 (Node.node 2 Node.nil Node.nil) Node.nil)).root :=
  ⟨by decide, by decide, insert_present_is_noop _ 2 (by decide) (by decide)⟩

/-- C16: every node of `t` is found after `Insert(v)` at the same position with the
same value; and either the tree is unchanged (same number of nodes), or it has
exactly one node more, at a position `p` that was empty in `t`, holding `v`, without
children, every other position being as it was. -/
theorem insert_only_attaches (t : Node) (v : Int) :
    (∀ (q : List Dir) (x : Int), Node.valueAt t q = some x →
        Node.valueAt (insertRec t v) q = some x) ∧
      ((Node.size (insertRec t v) = Node.size t ∧ insertRec t v = t) ∨
        (Node.size (insertRec t v) = Node.size t + 1 ∧
          ∃ p, Node.valueAt t p = none ∧ Node.valueAt (insertRec t v) p = some v ∧
            Node.valueAt (insertRec t v) (p ++ [Dir.left]) = none ∧
            Node.valueAt (insertRec t v) (p ++ [Dir.right]) = none ∧
            ∀ q, q ≠ p → Node.valueAt (insertRec t v) q = Node.valueAt t q)) := by
  rcases insertRec_attaches t v with h | ⟨hs, p, hp0, hp1, hp2, hp3, hq⟩
  · exact ⟨fun q x hx => by rw [h]; exact hx, Or.inl ⟨by rw [h], h⟩⟩
  · refine ⟨fun q x hx => ?_, Or.inr ⟨hs, p, hp0, hp1, hp2, hp3, hq⟩⟩
    by_cases hqp : q = p
    · rw [hqp, hp0] at hx
      exact absurd hx (by simp)
    · rw [hq q hqp]
      exact hx

/-- Witness for C16: the node holding 2, left of the root, stays there when 3 is
inserted. -/
theorem insert_only_attaches_witness :
    Node.valueAt (Node.node 5 (Node.node 2 Node.nil Node.nil) Node.nil) [Dir.left] = some 2 ∧
      Node.valueAt (insertRec (Node.node 5 (Node.node 2 Node.nil Node.nil) Node.nil) 3)
        [Dir.left] = some 2 :=
  ⟨by decide, (insert_only_attaches _ 3).1 [Dir.left] 2 (by decide)⟩

/-- C17: for an ordered tree, the `inorder` output after `Insert(v)` is the output
before it when `v` is already in that output, and otherwise the output before it with
`v` inserted at its sorted position. -/
theorem inorder_insert_refines_sorted_insert (t : Node) (v : Int) (ht : Node.Ordered t) :
    inorder (insertRec t v)
      = if v ∈ inorder t then inorder t
        else List.orderedInsert (fun a b => a ≤ b) v (inorder t) := by
  split_ifs with hv
  · rw [insertRec_eq_self_of_holds t v ht ((mem_inorder t v).1 hv)]
  · have hs := sorted_inorder (insertRec t v) (ordered_insertRec t v ht)
    have hs0 := sorted_inorder t ht
    have hp : (inorder (insertRec t v)).Perm (v :: inorder t) := by
      refine (List.perm_ext_iff_of_nodup hs.nodup (List.nodup_cons.2 ⟨hv, hs0.nodup⟩)).2 ?_
      intro z
      rw [mem_inorder, holds_insertRec, List.mem_cons, mem_inorder]
      tauto
    exact List.eq_of_perm_of_sorted
      (hp.trans (List.perm_orderedInsert (fun a b => a ≤ b) v (inorder t)).symm)
      hs.le_of_lt (hs0.le_of_lt.orderedInsert v (inorder t))

/-- Witness for C17: inserting 3 into the ordered tree that emits 2, 5. -/
theorem inorder_insert_refines_sorted_insert_witness :
    Node.Ordered (Node.node 5 (Node.node 2 Node.nil Node.nil) Node.nil) ∧
      inorder (insertRec (Node.node 5 (Node.node 2 Node.nil Node.nil) Node.nil) 3)
        = if (3 : Int) ∈ inorder (Node.node 5 (Node.node 2 Node.nil Node.nil) Node.nil)
          then inorder (Node.node 5 (Node.node 2 Node.nil Node.nil) Node.nil)
          else List.orderedInsert (fun a b => a ≤ b) 3
            (inorder (Node.node 5 (Node.node 2 Node.nil Node.nil) Node.nil)) :=
  ⟨by decide, inorder_insert_refines_sorted_insert _ 3 (by decide)⟩

/-- C18: after inserting a non-empty sequence into the empty tree, the root node holds
the first value of the sequence, whatever values follow it. -/
theorem root_holds_first_value (x : Int) (rest : List Int) :
    Node.valueAt (insertAll BST.empty (x :: rest)).root [] = some x :=
  valueAt_root_insertAll (BST.empty.Insert x) rest x rfl

end Bst
